import Mathlib

/-!
Verification of the zero_v repository: the structural-list runtime model
(src/composite.rs, the generated level/iterator code of
zero_v_gen/src/trait_types.rs and the manual example in src/lib.rs), and the
generator's name-derivation and signature-extraction pipeline
(zero_v_gen/src/idents.rs, zero_v_gen/src/trait_types.rs).

The generated runtime code is generic over the element types of the composed
list: each element only enters through a call of the trait method on it.  The
shallow embedding therefore abstracts the trait dictionary as one function
`m : α → γ → β` (element, captured argument tuple, return value); a
heterogeneous Rust composite corresponds to the instance `α := γ → β` with
`m f a = f a`, every element represented by its method's behaviour.
-/

set_option autoImplicit false

namespace ZeroV

variable {α β γ : Type}

/-- Nodes models the family of types accepted in a Composite head or a Node
tail (src/composite.rs): `Nodes.empty` is the unit type `()` and
`Nodes.node data next` is `Node { data, next }`.  The NextNode marker trait is
implemented exactly for these two shapes, so the inductive covers precisely
the valid tails. -/
inductive Nodes (α : Type) where
  | empty : Nodes α
  | node (data : α) (next : Nodes α) : Nodes α
  deriving DecidableEq, Repr

/-- Composite models `Composite<A: NextNode>` of src/composite.rs: a struct
holding the first node (or the unit type) in its `head` field. -/
structure Composite (α : Type) where
  head : Nodes α
  deriving DecidableEq, Repr

/-- Number of elements held in a chain of nodes (the list's depth N). -/
def Nodes.depth : Nodes α → Nat
  | .empty => 0
  | .node _ next => next.depth + 1

/-- Model of the `compose_nodes!` macro of src/composite.rs: the empty
invocation yields the unit type, a single value yields `Node::base(val)`
(that is, `Node::new(val, ())`), and a longer list yields
`Node::new(left, compose_nodes!(rest))`. -/
def compose_nodes : List α → Nodes α
  | [] => .empty
  | e :: rest => .node e (compose_nodes rest)

/-- Model of the `compose!` macro of src/composite.rs: wrap the nodes built
by `compose_nodes!` into a Composite. -/
def compose (l : List α) : Composite α :=
  ⟨compose_nodes l⟩

/-- The generated level method (zero_v_gen/src/trait_types.rs, impls of the
level trait): the `()` impl unconditionally returns `None`; the
`Node<TraitType, NodeType>` impl returns
`if level != 0 { self.next.m_at_level(args, level - 1) } else { Some(self.data.m(args)) }`.
`m` abstracts the trait method invoked on `data`, `args` the argument tuple. -/
def execute_at_level (m : α → γ → β) : Nodes α → γ → Nat → Option β
  | .empty, _, _ => none
  | .node data next, args, level =>
      if level ≠ 0 then execute_at_level m next args (level - 1)
      else some (m data args)

/-- The generated per-method iterator type (zero_v_gen/src/trait_types.rs):
a `level` cursor, one field per captured method argument (collapsed here into
the tuple `args`), and a borrowed reference `parent` to the composite's head
node.  The borrow is modelled by holding the node value, which is sound
because the list is immutable once composed. -/
structure CompositeIterator (α γ : Type) where
  level : Nat
  args : γ
  parent : Nodes α
  deriving DecidableEq, Repr

/-- The generated iterator constructor: store the parent reference and the
argument values and start the cursor at level 0. -/
def CompositeIterator.new (parent : Nodes α) (args : γ) : CompositeIterator α γ :=
  { parent := parent, args := args, level := 0 }

/-- The generated `Iterator::next`: call the level method on the held parent
with the held arguments at the current level, unconditionally increment the
level cursor, and return the call's result.  The `&mut self` update is
modelled by returning the successor state alongside the result. -/
def CompositeIterator.next (m : α → γ → β) (it : CompositeIterator α γ) :
    Option β × CompositeIterator α γ :=
  (execute_at_level m it.parent it.args it.level, { it with level := it.level + 1 })

/-- The generated `iter_<m>` method on Composite
(zero_v_gen/src/trait_types.rs): `CompositeIterator::new(&self.head, args)`. -/
def Composite.iter_method (c : Composite α) (args : γ) : CompositeIterator α γ :=
  CompositeIterator.new c.head args

/-- The finite sequence an iterator yields: repeatedly apply `next`,
collecting values until the first `None` (Rust iteration stops at the first
`None`).  `fuel` bounds the number of `next` calls, so the definition is
executable; every theorem supplies enough fuel to exhaust the sequence. -/
def runIter (m : α → γ → β) : Nat → CompositeIterator α γ → List β
  | 0, _ => []
  | fuel + 1, it =>
      match CompositeIterator.next m it with
      | (none, _) => []
      | (some b, it2) => b :: runIter m fuel it2

/-- The level method on a composed list agrees with positional lookup in the
source list: index i yields `some` of the i-th element's method result and
`none` beyond the end. -/
theorem execute_at_level_compose_nodes (m : α → γ → β) (args : γ) :
    ∀ (l : List α) (i : Nat),
      execute_at_level m (compose_nodes l) args i
        = (l[i]?).map (fun e => m e args) := by
  intro l
  induction l with
  | nil => intro i; simp [compose_nodes, execute_at_level]
  | cons e rest ih =>
      intro i
      cases i with
      | zero => simp [compose_nodes, execute_at_level]
      | succ j => simp [compose_nodes, execute_at_level, ih j]

/-- Running a generated iterator whose cursor sits at level k yields the
method results of the elements from position k on, provided the fuel covers
the remaining length. -/
theorem runIter_compose_nodes (m : α → γ → β) (l : List α) (args : γ) :
    ∀ (fuel k : Nat), l.length ≤ k + fuel →
      runIter m fuel ⟨k, args, compose_nodes l⟩
        = (l.drop k).map (fun e => m e args) := by
  intro fuel
  induction fuel with
  | zero =>
      intro k h
      rw [List.drop_eq_nil_of_le (by omega)]
      simp [runIter]
  | succ fuel ih =>
      intro k h
      have hx := execute_at_level_compose_nodes m args l k
      cases hk : l[k]? with
      | none =>
          have hlen : l.length ≤ k := List.getElem?_eq_none_iff.mp hk
          rw [List.drop_eq_nil_of_le hlen]
          simp [runIter, CompositeIterator.next, hx, hk]
      | some e =>
          rcases List.getElem?_eq_some_iff.mp hk with ⟨hlt, hget⟩
          rw [List.drop_eq_getElem_cons hlt]
          simp only [runIter, CompositeIterator.next, hx, hk, Option.map_some,
            List.map_cons, hget]
          exact congrArg _ (ih (k + 1) (by omega))

/-- State of two iterators over the same composite, used to express that
advancing one leaves the other untouched: the Rust `next` takes `&mut self`
on the first iterator only, so a step of the pair rebuilds the first
component and passes the second through. -/
structure IterPair (α γ : Type) where
  fst : CompositeIterator α γ
  snd : CompositeIterator α γ
  deriving DecidableEq, Repr

/-- Advance the first iterator of a pair once (the second is not part of the
state `next` may touch). -/
def stepFst (m : α → γ → β) (p : IterPair α γ) : Option β × IterPair α γ :=
  ((CompositeIterator.next m p.fst).1, ⟨(CompositeIterator.next m p.fst).2, p.snd⟩)

/-- Advance the first iterator of a pair k times. -/
def stepFstN (m : α → γ → β) : Nat → IterPair α γ → IterPair α γ
  | 0, p => p
  | k + 1, p => stepFstN m k (stepFst m p).2

/-- Advancing the first component any number of times never changes the
second component. -/
theorem stepFstN_snd (m : α → γ → β) :
    ∀ (k : Nat) (p : IterPair α γ), (stepFstN m k p).snd = p.snd := by
  intro k
  induction k with
  | zero => intro p; rfl
  | succ k ih => intro p; simpa [stepFstN, stepFst] using ih _

/-- Advance a single iterator k times by repeated `next` calls, discarding
the yielded values. -/
def advanceN (m : α → γ → β) : Nat → CompositeIterator α γ → CompositeIterator α γ
  | 0, it => it
  | k + 1, it => advanceN m k (CompositeIterator.next m it).2

/-- Each advance adds exactly one to the level cursor. -/
theorem advanceN_level (m : α → γ → β) :
    ∀ (k : Nat) (it : CompositeIterator α γ),
      (advanceN m k it).level = it.level + k := by
  intro k
  induction k with
  | zero => intro it; rfl
  | succ k ih =>
      intro it
      simp only [advanceN, ih, CompositeIterator.next]
      omega

/-- Instrumentation of `execute_at_level`: the number of level-method
invocations a call performs.  Each invocation counts one; the Node impl
performs one further invocation on `next` whenever `level != 0`, exactly
mirroring the branch structure of `execute_at_level`. -/
def stepsAtLevel : Nodes α → Nat → Nat
  | .empty, _ => 1
  | .node _ next, level =>
      if level ≠ 0 then 1 + stepsAtLevel next (level - 1)
      else 1

/-- The invocation count of a level call on a composed list is one more than
the smaller of the index and the depth. -/
theorem stepsAtLevel_compose_nodes :
    ∀ (l : List α) (i : Nat),
      stepsAtLevel (compose_nodes l) i = min i l.length + 1 := by
  intro l
  induction l with
  | nil => intro i; simp [compose_nodes, stepsAtLevel]
  | cons e rest ih =>
      intro i
      cases i with
      | zero => simp [compose_nodes, stepsAtLevel]
      | succ j =>
          simp only [compose_nodes, stepsAtLevel, List.length_cons]
          rw [if_pos (by omega)]
          have hj : j + 1 - 1 = j := rfl
          rw [hj, ih j]
          omega

/-! ### The generator pipeline (zero_v_gen)

The generator is a syntactic transform on a parsed Rust trait declaration.
The embedding keeps exactly the structure the generator inspects: method
names, the ordered input list (receiver or typed argument), and the optional
return type.  A type expression is opaque to the generator and is modelled by
its verbatim text together with the borrow-scope (lifetime) names it
mentions, which the generator copies along untouched. -/

/-- A Rust type expression as the generator sees it: verbatim text plus the
lifetime names occurring in it.  The generator never inspects either. -/
structure TypeExpr where
  txt : String
  lifetimes : List String
  deriving DecidableEq, Repr

/-- The receiver forms a Rust trait method can declare. -/
inductive Receiver where
  | refSelf
  | refMutSelf
  | selfValue
  deriving DecidableEq, Repr

/-- A typed (non-receiver) argument: pattern ident and type. -/
structure TypedArg where
  name : String
  ty : TypeExpr
  deriving DecidableEq, Repr

/-- One input of a method signature: the receiver (`FnArg::Receiver`) or a
typed argument (`FnArg::Typed`). -/
inductive RustFnArg where
  | receiver (r : Receiver)
  | typed (a : TypedArg)
  deriving DecidableEq, Repr

/-- A trait method as parsed from the declaration: name, ordered inputs
(receiver included), optional return type (`None` = `ReturnType::Default`). -/
structure TraitMethod where
  ident : String
  inputs : List RustFnArg
  output : Option TypeExpr
  deriving DecidableEq, Repr

/-- A trait declaration as the generator consumes it: its name and its
methods in order (non-method trait items are filtered out by the source's
`filter_map` and are therefore not modelled). -/
structure TraitDef where
  ident : String
  methods : List TraitMethod
  deriving DecidableEq, Repr

/-- Split a character list at underscores, dropping the separators. -/
def splitWords : List Char → List (List Char)
  | [] => [[]]
  | c :: cs =>
      if c = '_' then [] :: splitWords cs
      else
        match splitWords cs with
        | [] => [[c]]
        | w :: rest => (c :: w) :: rest

/-- Capitalize a word: first character uppercased, the rest lowercased. -/
def capitalizeChars : List Char → List Char
  | [] => []
  | c :: cs => c.toUpper :: cs.map Char.toLower

/-- Model of the external convert_case crate's UpperCamel conversion as used
on Rust snake_case method names: split on underscores, drop empty segments,
capitalize each word and concatenate. -/
def upperCamel (s : String) : String :=
  String.mk (((splitWords s.data).filter (fun w => w ≠ [])).map capitalizeChars).flatten

/-- The Idents struct of zero_v_gen/src/idents.rs: the trait's name and its
method names in declaration order. -/
structure Idents where
  main : String
  mainMethods : List String
  deriving DecidableEq, Repr

/-- `Idents::from_trait`: keep the trait name and the method idents. -/
def Idents.from_trait (t : TraitDef) : Idents :=
  ⟨t.ident, t.methods.map (fun m => m.ident)⟩

/-- `Idents::level_trait`: the level interface name. -/
def Idents.level_trait (i : Idents) : String :=
  i.main ++ "AtLevel"

/-- `Idents::level_methods`: one level-method name per trait method. -/
def Idents.level_methods (i : Idents) : List String :=
  i.mainMethods.map (fun m => m ++ "_at_level")

/-- `Idents::iter_trait`: the iteration interface name. -/
def Idents.iter_trait (i : Idents) : String :=
  "Iter" ++ i.main

/-- `Idents::iter_methods`: one iteration-method name per trait method. -/
def Idents.iter_methods (i : Idents) : List String :=
  i.mainMethods.map (fun m => "iter_" ++ m)

/-- `Idents::composite_iters`: one iterator type name per trait method,
using the UpperCamel form of the method name. -/
def Idents.composite_iters (i : Idents) : List String :=
  i.mainMethods.map (fun m => "CompositeIterator" ++ upperCamel m)

/-- The `trait_method_inputs` binding of trait_types.rs: keep the typed
arguments of a method, silently dropping the receiver whatever its form. -/
def trait_method_inputs (m : TraitMethod) : List TypedArg :=
  m.inputs.filterMap (fun a =>
    match a with
    | .typed t => some t
    | .receiver _ => none)

/-- The `trait_method_args` binding: the pattern idents of the typed
arguments, for splicing into call sites. -/
def trait_method_args (m : TraitMethod) : List String :=
  (trait_method_inputs m).map (fun a => a.name)

/-- The `trait_method_outputs` binding: the declared return type, or the
unit type when the method declares none. -/
def trait_method_output (m : TraitMethod) : TypeExpr :=
  match m.output with
  | none => ⟨"()", []⟩
  | some t => t

/-- The `level_method_outputs` binding: the return type wrapped in Option,
`Option<()>` when the method declares none.  The wrapped type's text and
lifetime mentions are copied verbatim. -/
def level_method_output (m : TraitMethod) : TypeExpr :=
  match m.output with
  | none => ⟨"Option<()>", []⟩
  | some t => ⟨"Option<" ++ t.txt ++ ">", t.lifetimes⟩

/-- One generated level-method signature as emitted into the level trait and
its impls: derived name, the method's original input list unchanged (the
emission splices `#level_method_inputs` verbatim, receiver included; the
extra `level: usize` parameter is appended by the template), and the
Option-wrapped output. -/
structure LevelMethodSig where
  name : String
  inputs : List RustFnArg
  output : TypeExpr
  deriving DecidableEq, Repr

/-- The pieces of the generator's emission that the claims are about. -/
structure GenOutput where
  levelTraitName : String
  iterTraitName : String
  levelMethodSigs : List LevelMethodSig
  iterMethodNames : List String
  compositeIterNames : List String
  deriving DecidableEq, Repr

/-- Model of `TraitTypes::generate` (zero_v_gen/src/trait_types.rs): derive
the names via Idents and emit one level method, one iteration method and one
iterator type per trait method.  The function is total: the source has no
error path, performs no receiver validation, no lifetime-reachability check
and no collision check. -/
def TraitTypes.generate (t : TraitDef) : GenOutput :=
  let idents := Idents.from_trait t
  { levelTraitName := idents.level_trait
    iterTraitName := idents.iter_trait
    levelMethodSigs := t.methods.map (fun m =>
      { name := m.ident ++ "_at_level"
        inputs := m.inputs
        output := level_method_output m })
    iterMethodNames := idents.iter_methods
    compositeIterNames := idents.composite_iters }

/-- Every trait method, whatever its shape, contributes its level-method
signature to the emission. -/
theorem generate_mem_levelMethodSigs (t : TraitDef) (m : TraitMethod)
    (h : m ∈ t.methods) :
    (⟨m.ident ++ "_at_level", m.inputs, level_method_output m⟩ : LevelMethodSig)
      ∈ (TraitTypes.generate t).levelMethodSigs := by
  simp only [TraitTypes.generate, List.mem_map]
  exact ⟨m, h, rfl⟩

/-- The construction macro is the right fold of Node over the element list,
terminated by the empty marker. -/
theorem compose_nodes_eq_foldr :
    ∀ (l : List α), compose_nodes l = l.foldr Nodes.node Nodes.empty := by
  intro l
  induction l with
  | nil => rfl
  | cons e rest ih => simp [compose_nodes, ih]

/-- A fixture trait whose only method takes `&mut self`: its receiver is not
an immutable borrow of self. -/
def mutMethod : TraitMethod :=
  ⟨"bump", [.receiver .refMutSelf, .typed ⟨"amount", ⟨"usize", []⟩⟩],
    some ⟨"usize", []⟩⟩

/-- A trait declaration containing only `mutMethod`. -/
def mutTraitDef : TraitDef :=
  ⟨"Counter", [mutMethod]⟩

/-- A fixture method whose return type mentions the borrow-scope parameter
`a` (written without the tick in the verbatim text) while none of its
arguments mention any lifetime: a dangling-reference signature. -/
def danglingMethod : TraitMethod :=
  ⟨"get_ref", [.receiver .refSelf], some ⟨"&a u32", ["a"]⟩⟩

/-- A trait declaration containing only `danglingMethod`. -/
def danglingTraitDef : TraitDef :=
  ⟨"Source", [danglingMethod]⟩

/-! ### The claims -/

/-- C1: on a list composed from elements e_0 … e_{N-1}, the generated level
method at index i returns `some (e_i.m args)` for i < N and `none` for
i ≥ N (so for the empty list every index yields `none`); the Empty (unit
type) implementation returns `none` unconditionally, and the Node
implementation invokes head's method wrapped in `some` when level = 0 and
otherwise delegates to the tail at level - 1. -/
theorem claim1_level_method_indexing (m : α → γ → β) (l : List α) (args : γ)
    (i : Nat) :
    execute_at_level m (compose_nodes l) args i
        = (l[i]?).map (fun e => m e args)
      ∧ execute_at_level m (Nodes.empty : Nodes α) args i = none
      ∧ ∀ (e : α) (t : Nodes α),
          execute_at_level m (Nodes.node e t) args i
            = if i ≠ 0 then execute_at_level m t args (i - 1)
              else some (m e args) := by
  refine ⟨execute_at_level_compose_nodes m args l i, rfl, ?_⟩
  intro e t
  rfl

/-- C2: the generated `iter_m(args)` on a list composed from e_0 … e_{N-1}
yields exactly the list of the elements' method results in order, of length
exactly N (the empty sequence for N = 0); each advance calls the level
method at the current level, unconditionally increments the level cursor,
and returns the call's result. -/
theorem claim2_iter_yields_map (m : α → γ → β) (l : List α) (args : γ)
    (extra : Nat) :
    runIter m (l.length + extra) ((compose l).iter_method args)
        = l.map (fun e => m e args)
      ∧ (runIter m (l.length + extra) ((compose l).iter_method args)).length
          = l.length
      ∧ ∀ it : CompositeIterator α γ,
          CompositeIterator.next m it
            = (execute_at_level m it.parent it.args it.level,
                { it with level := it.level + 1 }) := by
  have h := runIter_compose_nodes m l args (l.length + extra) 0 (by omega)
  have h2 : runIter m (l.length + extra) ((compose l).iter_method args)
      = l.map (fun e => m e args) := by
    simpa [Composite.iter_method, CompositeIterator.new, compose] using h
  exact ⟨h2, by rw [h2]; simp, fun it => rfl⟩

/-- C3: each invocation of the generated `iter_m` constructs a fresh
iterator whose level cursor starts at 0 and whose state is its own;
advancing one of two iterators obtained from the same list any number of
times leaves the other iterator untouched, and the untouched iterator still
yields exactly what a fresh one yields. -/
theorem claim3_fresh_iterators_independent (m : α → γ → β) (c : Composite α)
    (args : γ) (k fuel : Nat) :
    (stepFstN m k ⟨c.iter_method args, c.iter_method args⟩).snd
        = c.iter_method args
      ∧ runIter m fuel
            (stepFstN m k ⟨c.iter_method args, c.iter_method args⟩).snd
          = runIter m fuel (c.iter_method args)
      ∧ (c.iter_method args).level = 0 := by
  refine ⟨stepFstN_snd m k _, ?_, rfl⟩
  rw [stepFstN_snd]

/-- C4: the Name Deriver is a pure function of the interface name and the
method names, producing exactly: level interface `X ++ "AtLevel"`, iteration
interface `"Iter" ++ X`, per-method level method `m ++ "_at_level"`,
per-method iteration method `"iter_" ++ m`, and per-method iterator type
`"CompositeIterator" ++ upperCamel m`. -/
theorem claim4_name_deriver (t : TraitDef) :
    (Idents.from_trait t).level_trait = t.ident ++ "AtLevel"
      ∧ (Idents.from_trait t).iter_trait = "Iter" ++ t.ident
      ∧ (Idents.from_trait t).level_methods
          = t.methods.map (fun m => m.ident ++ "_at_level")
      ∧ (Idents.from_trait t).iter_methods
          = t.methods.map (fun m => "iter_" ++ m.ident)
      ∧ (Idents.from_trait t).composite_iters
          = t.methods.map (fun m => "CompositeIterator" ++ upperCamel m.ident) := by
  refine ⟨rfl, rfl, ?_, ?_, ?_⟩ <;>
    simp [Idents.from_trait, Idents.level_methods, Idents.iter_methods,
      Idents.composite_iters]

/-- C5 counterexample: the two distinct method names `x_y` and `x__y` have
the same UpperCamel form, and name derivation does not fail: it returns the
two colliding iterator type names as-is. -/
theorem claim5_counterexample :
    (Idents.mk "IntOp" ["x_y", "x__y"]).composite_iters
        = ["CompositeIteratorXY", "CompositeIteratorXY"]
      ∧ ("x_y" : String) ≠ "x__y" := by
  constructor
  · decide
  · decide

/-- C5 amended: name derivation is total and performs no collision
detection: it always produces exactly one identifier per method, each
depending only on that method's own name, so coinciding UpperCamel forms (or
duplicate method names) yield colliding identifiers in the output instead of
a generation-time error. -/
theorem claim5_no_collision_check (i : Idents) (n : Nat) :
    (Idents.composite_iters i).length = i.mainMethods.length
      ∧ (Idents.composite_iters i)[n]?
          = (i.mainMethods[n]?).map (fun m => "CompositeIterator" ++ upperCamel m)
      ∧ (Idents.level_methods i)[n]?
          = (i.mainMethods[n]?).map (fun m => m ++ "_at_level")
      ∧ (Idents.iter_methods i)[n]?
          = (i.mainMethods[n]?).map (fun m => "iter_" ++ m) := by
  refine ⟨?_, ?_, ?_, ?_⟩ <;>
    simp [Idents.composite_iters, Idents.level_methods, Idents.iter_methods]

/-- C6 counterexample: a trait whose only method takes `&mut self` is not
rejected: the generator silently produces the full emission, copying the
mutable receiver into the level-method signature. -/
theorem claim6_counterexample :
    TraitTypes.generate mutTraitDef
        = ⟨"CounterAtLevel", "IterCounter",
            [⟨"bump_at_level",
              [.receiver .refMutSelf, .typed ⟨"amount", ⟨"usize", []⟩⟩],
              ⟨"Option<usize>", []⟩⟩],
            ["iter_bump"], ["CompositeIteratorBump"]⟩
      ∧ mutMethod.inputs.head? = some (.receiver .refMutSelf) := by
  constructor
  · decide
  · rfl

/-- C6 amended: the generator performs no receiver validation: every method,
whatever its receiver form, contributes its level-method signature to the
emission (so interfaces whose methods all take `&self` also generate), and
signature extraction silently drops the receiver, producing the same typed
argument list for every receiver form. -/
theorem claim6_no_receiver_rejection (t : TraitDef) (m : TraitMethod)
    (h : m ∈ t.methods) :
    (⟨m.ident ++ "_at_level", m.inputs, level_method_output m⟩ : LevelMethodSig)
        ∈ (TraitTypes.generate t).levelMethodSigs
      ∧ ∀ (r r2 : Receiver) (name : String) (rest : List RustFnArg)
          (out : Option TypeExpr),
          trait_method_inputs ⟨name, .receiver r :: rest, out⟩
            = trait_method_inputs ⟨name, .receiver r2 :: rest, out⟩ := by
  refine ⟨generate_mem_levelMethodSigs t m h, ?_⟩
  intro r r2 name rest out
  simp [trait_method_inputs]

/-- Witness for C6: the amended theorem applied to the concrete `&mut self`
fixture trait. -/
theorem claim6_witness :
    (⟨mutMethod.ident ++ "_at_level", mutMethod.inputs,
        level_method_output mutMethod⟩ : LevelMethodSig)
      ∈ (TraitTypes.generate mutTraitDef).levelMethodSigs :=
  (claim6_no_receiver_rejection mutTraitDef mutMethod
    (by simp [mutTraitDef])).1

/-- C7 counterexample: a method whose return type mentions the borrow-scope
parameter `a` while no argument mentions any lifetime reaches emission: the
generator produces the full output, wrapping the return type (lifetime
mention included) in Option, instead of failing. -/
theorem claim7_counterexample :
    TraitTypes.generate danglingTraitDef
        = ⟨"SourceAtLevel", "IterSource",
            [⟨"get_ref_at_level", [.receiver .refSelf],
              ⟨"Option<&a u32>", ["a"]⟩⟩],
            ["iter_get_ref"], ["CompositeIteratorGetRef"]⟩
      ∧ danglingMethod.output.map (fun ty => ty.lifetimes) = some ["a"]
      ∧ (trait_method_inputs danglingMethod).map (fun a2 => a2.ty.lifetimes)
          = [] := by
  refine ⟨?_, rfl, rfl⟩
  decide

/-- C7 amended: the generator performs no borrow-scope reachability check:
every method reaches emission, its return type copied verbatim into the
Option-wrapped level-method output with exactly the lifetime mentions of the
declared return type, regardless of what the arguments mention. -/
theorem claim7_no_lifetime_check (t : TraitDef) (m : TraitMethod)
    (h : m ∈ t.methods) :
    ∃ sig ∈ (TraitTypes.generate t).levelMethodSigs,
      sig.output = level_method_output m
        ∧ sig.output.lifetimes = (trait_method_output m).lifetimes := by
  refine ⟨⟨m.ident ++ "_at_level", m.inputs, level_method_output m⟩,
    generate_mem_levelMethodSigs t m h, rfl, ?_⟩
  obtain ⟨mi, mins, mo⟩ := m
  cases mo <;> rfl

/-- Witness for C7: the amended theorem applied to the concrete
dangling-lifetime fixture trait. -/
theorem claim7_witness :
    ∃ sig ∈ (TraitTypes.generate danglingTraitDef).levelMethodSigs,
      sig.output = level_method_output danglingMethod
        ∧ sig.output.lifetimes = (trait_method_output danglingMethod).lifetimes :=
  claim7_no_lifetime_check danglingTraitDef danglingMethod
    (by simp [danglingTraitDef])

/-- C8: the construction macros fold the literal argument list right-to-left
into nested Node values terminated by the empty marker; the empty invocation
yields the unit type value, and `compose!` wraps the result in a
Composite. -/
theorem claim8_compose_foldr (l : List α) (e : α) :
    compose_nodes l = l.foldr Nodes.node Nodes.empty
      ∧ compose l = ⟨l.foldr Nodes.node Nodes.empty⟩
      ∧ compose_nodes ([] : List α) = Nodes.empty
      ∧ compose_nodes (e :: l) = Nodes.node e (compose_nodes l) := by
  refine ⟨compose_nodes_eq_foldr l, ?_, rfl, rfl⟩
  simp [compose, compose_nodes_eq_foldr l]

/-- C9 counterexample: on the empty list (depth 0) a call with index 5
resolves in one invocation, not 5 + 1: the traversal stops at Empty and
never runs for i + 1 steps when i exceeds the depth. -/
theorem claim9_counterexample :
    stepsAtLevel (compose_nodes ([] : List Nat)) 5 = 1
      ∧ (1 : Nat) ≠ 5 + 1
      ∧ execute_at_level (fun (e : Nat) (a : Nat) => e + a)
          (compose_nodes ([] : List Nat)) 0 5 = none := by
  refine ⟨rfl, by decide, rfl⟩

/-- C9 amended: a call with index i on a list of depth N resolves in exactly
min i N + 1 invocations — i + 1 when i < N, terminating at the matching node
with a present result, and N + 1 when i ≥ N, terminating at Empty with an
absent result — and hence never traverses beyond the list's physical
depth. -/
theorem claim9_steps_min (m : α → γ → β) (args : γ) (l : List α) (i : Nat) :
    stepsAtLevel (compose_nodes l) i = min i l.length + 1
      ∧ stepsAtLevel (compose_nodes l) i ≤ l.length + 1
      ∧ (execute_at_level m (compose_nodes l) args i).isSome
          = decide (i < l.length) := by
  have h := stepsAtLevel_compose_nodes l i
  refine ⟨h, by omega, ?_⟩
  rw [execute_at_level_compose_nodes]
  by_cases hlt : i < l.length
  · rw [List.getElem?_eq_getElem hlt]
    simp [hlt]
  · rw [List.getElem?_eq_none (by omega)]
    simp [hlt]

/-- C10: a `next` call mutates only the level cursor, increasing it by
exactly one whether the result is present or absent; the captured argument
values and the parent reference are unchanged, and after k calls on a fresh
iterator the level cursor equals k. -/
theorem claim10_next_frame (m : α → γ → β) (it : CompositeIterator α γ)
    (k : Nat) (c : Composite α) (args : γ) :
    (CompositeIterator.next m it).2.level = it.level + 1
      ∧ (CompositeIterator.next m it).2.args = it.args
      ∧ (CompositeIterator.next m it).2.parent = it.parent
      ∧ (advanceN m k (c.iter_method args)).level = k := by
  refine ⟨rfl, rfl, rfl, ?_⟩
  rw [advanceN_level]
  simp [Composite.iter_method, CompositeIterator.new]

end ZeroV
